import Mathlib

/-
Verification development for the style build pipeline of
packages/arco-scripts/src/scripts/build/component/compileStyle.ts.

Strings are modelled as lists of characters (`List Char`); file contents and
paths alike.  Fallible pipeline stages return `Except` or `Option`; the gulp
task graph is modelled as an explicit tagged tree evaluated by a single-threaded
scheduler that records which leaves are started and which completions are
awaited.
-/

/-- Boolean test that the first list is a leading segment of the second
(model of JavaScript String method startsWith and of anchored matching). -/
def isPref : List Char → List Char → Bool
  | [], _ => true
  | _ :: _, [] => false
  | a :: ps, b :: ls => a == b && isPref ps ls

/-- Boolean test that `p` occurs as a contiguous run somewhere in the list. -/
def occursIn (p : List Char) : List Char → Bool
  | [] => isPref p []
  | c :: cs => isPref p (c :: cs) || occursIn p cs

/-- Model of JavaScript `s.replace(pat, '')` with a plain string pattern:
the first occurrence of `pat` is deleted, the rest is kept unchanged.
Used by the watch handler for `fullPath.replace(cwd, '')` (line 172). -/
def removeFirst (pat : List Char) : List Char → List Char
  | [] => []
  | c :: cs => if isPref pat (c :: cs) then (c :: cs).drop pat.length else c :: removeFirst pat cs

/-- Index of the first `'/'`, as JavaScript `indexOf` (found position or none). -/
def idxOfSlash : List Char → Option Nat
  | [] => none
  | c :: cs => if c == '/' then some 0 else (idxOfSlash cs).map (· + 1)

/-- Model of `entry.slice(entry.indexOf('/'))` (compileStyle.ts line 76):
JavaScript `indexOf` yields -1 when no slash occurs, and `slice(-1)` keeps
only the final character, i.e. drops `length - 1` characters. -/
def sliceFromSlash (l : List Char) : List Char :=
  match idxOfSlash l with
  | some i => l.drop i
  | none => l.drop (l.length - 1)

/-- Split a path at `'/'` characters. -/
def splitSlash : List Char → List (List Char)
  | [] => [[]]
  | c :: cs =>
    if c == '/' then [] :: splitSlash cs
    else
      match splitSlash cs with
      | g :: gs => (c :: g) :: gs
      | [] => [[c]]

/-- Length of the common leading run of two segment lists. -/
def commonLen : List (List Char) → List (List Char) → Nat
  | a :: as, b :: bs => if a == b then commonLen as bs + 1 else 0
  | _, _ => 0

/-- Join segment lists with a separator character. -/
def joinWith (sep : Char) : List (List Char) → List Char
  | [] => []
  | [g] => g
  | g :: gs => g ++ sep :: joinWith sep gs

/-- Model of Node `path.relative(fromPath, toPath)` for already-relative,
already-normalised paths resolved against the same working directory: drop
the common leading segments, then climb with `..` segments and descend into
the remaining target segments.  External library function used by
compileStyle.ts lines 77 and 135. -/
def pathRelative (fromPath toPath : List Char) : List Char :=
  let f := (splitSlash fromPath).filter (fun g => !g.isEmpty)
  let t := (splitSlash toPath).filter (fun g => !g.isEmpty)
  let c := commonLen f t
  joinWith '/' (List.replicate (f.length - c) ['.', '.'] ++ t.drop c)

/-- `esEntry` of compileStyle.ts line 76: the ESM output directory name
followed by the entry path with its first directory level removed. -/
def esEntryOf (esDir entry : List Char) : List Char :=
  esDir ++ sliceFromSlash entry

/-- The import directive emitted for one entry (compileStyle.ts lines 77-78). -/
def entryText (esDir distPath entry : List Char) : List Char :=
  "@import \"".toList ++ pathRelative distPath (esEntryOf esDir entry) ++ "\";".toList

/-- The classification test of compileStyle.ts line 80:
`esEntry.startsWith(cssConfig.output.es + '/style')` — a plain string
test on the ES path, with no requirement of a segment boundary after
the word `style`. -/
def isStyleEntry (esDir entry : List Char) : Bool :=
  isPref (esDir ++ "/style".toList) (esEntryOf esDir entry)

/-- Modelled from the spec: an entry "whose source path lies under a reserved
style namespace" — the ES path is the style directory itself or lies strictly
below it (segment boundary required).  This follows the specification's words
and is compared against the source's `isStyleEntry`. -/
def underStyleNamespace (esDir entry : List Char) : Bool :=
  (esEntryOf esDir entry == esDir ++ "/style".toList)
    || isPref (esDir ++ "/style/".toList) (esEntryOf esDir entry)

/-- One iteration of the entry loop of compileStyle.ts lines 74-85:
style-classified directives are prepended (`texts.unshift`), all others are
appended (`texts.push`). -/
def distLessStep (esDir distPath : List Char) (acc : List (List Char)) (e : List Char) :
    List (List Char) :=
  if isStyleEntry esDir e then entryText esDir distPath e :: acc
  else acc ++ [entryText esDir distPath e]

/-- The ordered directive list built by `distLess` over the glob matches. -/
def distLessTexts (esDir distPath : List Char) (entries : List (List Char)) :
    List (List Char) :=
  entries.foldl (distLessStep esDir distPath) []

/-- Model of `distLess` (compileStyle.ts lines 63-91): with no matched entries
nothing is written (`none`); otherwise the index file
`distPath/rawFileName` is written with the newline-joined directives.  The
callback `cb()` runs unconditionally, which totality of this function models. -/
def distLess (esDir distPath rawFileName : List Char) (entries : List (List Char)) :
    Option (List Char × List Char) :=
  if entries.isEmpty then none
  else some (distPath ++ '/' :: rawFileName, joinWith '\n' (distLessTexts esDir distPath entries))

/-- Model of `compileLess` (compileStyle.ts lines 94-114): the entry sources
run once through the configured compiler and then through the cleanCSS pass,
and the single resulting stream is piped into every configured destination
directory (the truthy ones among ES and CJS), so each destination receives
the same bytes.  Result: an association from destination directory to the
list of (file, compiled content) pairs written there. -/
def compileLess (esDir cjsDir : List Char) (compilerFn cleanCssFn : List Char → List Char)
    (sources : List (List Char × List Char)) :
    List (List Char × List (List Char × List Char)) :=
  (([esDir, cjsDir]).filter (fun d => !d.isEmpty)).map
    (fun d => (d, sources.map (fun s => (s.1, cleanCssFn (compilerFn s.2)))))

/-- Modelled from the spec: `BUILD_ENV_MODE` of `../../../constant` is not part
of the provided sources; the spec describes it as "an environment-derived
build-mode indicator", here an optional string, `none` when unset. -/
def needCleanCss (isDev : Bool) (envMode : Option String) : Bool :=
  !isDev && (match envMode with
    | none => true
    | some m => m == "production")

/-- The literal pattern `../es` whose occurrences the artifact must not keep. -/
def esPat : List Char := ['.', '.', '/', 'e', 's']

/-- A character the regex metacharacter dot matches (anything but a line break). -/
def notNL (c : Char) : Bool := c != '\n' && c != '\r'

/-- Maximal number of leading repetitions of the regex group `(.{2}\/)`:
the template literal of compileStyle.ts line 134 contains the escapes
backslash-dot and backslash-slash inside a plain (non-raw) string, so the
compiled regular expression source is `(.{2}/)+es` — two arbitrary
non-newline characters followed by a slash, one or more times. -/
def repsFrom : List Char → Nat
  | a :: b :: '/' :: rest => if notNL a && notNL b then repsFrom rest + 1 else 0
  | _ => 0

/-- Whether the list starts with the literal characters `es`
(the ESM output directory name of the default configuration). -/
def esAt : List Char → Bool
  | 'e' :: 's' :: _ => true
  | _ => false

/-- Greedy backtracking over the repetition count: try the largest possible
number of `(.{2}/)` groups first and back off one group at a time until the
literal `es` follows, exactly as the regex engine does for a fixed-width
group. -/
def findK (l : List Char) : Nat → Option Nat
  | 0 => none
  | k + 1 => if esAt (l.drop (3 * (k + 1))) then some (k + 1) else findK l k

/-- Attempt to match the regex `(.{2}/)+es` at the head of the list, yielding
the length of the (leftmost, greedy) match. -/
def tryMatch (l : List Char) : Option Nat :=
  (findK l (repsFrom l)).map (fun k => 3 * k + 2)

/-- Left-to-right global replacement of the regex `(.{2}/)+es` by `rp`,
restarting after the end of each match, as JavaScript global `replace` does.
The fuel argument bounds the recursion; the entry point passes the input
length, which always suffices because every match is non-empty. -/
def replaceFuel (rp : List Char) : Nat → List Char → List Char
  | 0, l => l
  | _ + 1, [] => []
  | fuel + 1, c :: cs =>
    match tryMatch (c :: cs) with
    | some n => rp ++ replaceFuel rp fuel ((c :: cs).drop n)
    | none => c :: replaceFuel rp fuel cs

/-- The `replace` pipeline step of compileStyle.ts lines 131-137: rewrite
every match of `(.{2}/)+es` to the relative path `rp` from the distributable
directory to the asset output directory. -/
def replaceAllEs (rp : List Char) (l : List Char) : List Char :=
  replaceFuel rp l.length l

/-- Side conditions on the replacement path `rp` under which the rewrite can
reintroduce no `../es` occurrence at a junction: `rp` is at least four
characters, contains no `../es`, no proper leading part of `rp` continues
`../es` started to its left, and no trailing part of `rp` starts `../es`
finished to its right.  All hold of ordinary values such as `../asset`. -/
def safeR (rp : List Char) : Prop :=
  4 ≤ rp.length ∧ occursIn esPat rp = false ∧
  isPref ['.', '/', 'e', 's'] rp = false ∧ isPref ['/', 'e', 's'] rp = false ∧
  isPref ['e', 's'] rp = false ∧ isPref ['s'] rp = false ∧
  rp.drop (rp.length - 1) ≠ ['.'] ∧ rp.drop (rp.length - 2) ≠ ['.', '.'] ∧
  rp.drop (rp.length - 3) ≠ ['.', '.', '/'] ∧ rp.drop (rp.length - 4) ≠ ['.', '.', '/', 'e']

instance (rp : List Char) : Decidable (safeR rp) := by
  unfold safeR; infer_instance

/-- Model of `gulp.src` on a single file: with `allowEmpty` a missing file
yields an empty stream instead of an error. -/
def gulpSrc (allowEmpty : Bool) (file : Option (List Char)) :
    Except String (Option (List Char)) :=
  match file with
  | some c => Except.ok (some c)
  | none => if allowEmpty then Except.ok none else Except.error "File not found"

/-- Model of `distCss` (compileStyle.ts lines 117-145): read the index file
with `allowEmpty: true`, compile it, rewrite asset references with
`replaceAllEs`, then minify exactly when `needCleanCss` holds
(`gulpIf(needCleanCss, cleanCSS())`), and write the artifact.  The returned
value is the artifact content, `none` when the index file was absent. -/
def distCss (isDev : Bool) (envMode : Option String)
    (compilerFn cleanCssFn : List Char → List Char) (distToAsset : List Char)
    (indexFile : Option (List Char)) : Except String (Option (List Char)) :=
  match gulpSrc true indexFile with
  | Except.error e => Except.error e
  | Except.ok none => Except.ok none
  | Except.ok (some raw) =>
    let compiled := compilerFn raw
    let replaced := replaceAllEs distToAsset compiled
    Except.ok (some (if needCleanCss isDev envMode then cleanCssFn replaced else replaced))

/-- The log line of the watch handler (compileStyle.ts lines 171-173):
the event kind in brackets, then the full path with the first occurrence of
the working directory removed. -/
def watchLogLine (cwd event fullPath : String) : String :=
  "[" ++ event ++ "] " ++ String.mk (removeFirst cwd.toList fullPath.toList)

/-- Model of the watch subscription loop (compileStyle.ts lines 171-177):
each delivered event is logged and triggers one `fastBuild` run whose outcome
— the i-th run behaves as `fb i` — is wrapped in `try ... catch {}`, so any
exception is discarded and the session continues with the next event.  An
exception escaping the handler would end the session with `Except.error`. -/
def runWatchSession (cwd : String) (fb : Nat → Except String Unit) :
    Nat → List (String × String) → Except String (List String)
  | _, [] => Except.ok []
  | i, e :: rest =>
    let tryResult : Except String Unit :=
      match fb i with
      | Except.ok _ => Except.ok ()
      | Except.error _ => Except.ok ()
    match tryResult with
    | Except.ok _ => (runWatchSession cwd fb (i + 1) rest).map
        (fun ls => watchLogLine cwd e.1 e.2 :: ls)
    | Except.error msg => Except.error msg

/-- The gulp task combinators as a tagged tree (spec section 3): a leaf task
that signals success or failure, a leaf wrapper that starts asynchronous work
but neither uses the scheduler's completion callback nor returns the stream
to it (the arrow `() => { distCss(true); }`) — such a wrapper never signals
completion at all — and binary sequential / parallel composition. -/
inductive GTask where
  | task (name : String) (ok : Bool)
  | fireAndForget (name : String)
  | seq (a b : GTask)
  | par (a b : GTask)

/-- Single-threaded evaluation of a task tree: the first component lists the
leaves started in start order, the second lists the leaves whose asynchronous
completion the scheduler awaits, the third is the composite completion
signal — `some b` when the composite eventually signals completion with
success `b`, and `none` when it never signals completion.  A plain task
signals its outcome; a fire-and-forget wrapper ignores the completion
callback and returns nothing awaitable, so it never signals (`none`).
`seq` starts its second child only after the first signals success, stops on
a signalled failure, and never signals if a child never signals; `par` starts
both children in registration order without cancelling a sibling, propagates
the first signalled failure, and otherwise signals success only once both
children have signalled. -/
def runT : GTask → List String × List String × Option Bool
  | GTask.task n ok => ([n], [n], some ok)
  | GTask.fireAndForget n => ([n], [], none)
  | GTask.seq a b =>
    let ra := runT a
    match ra.2.2 with
    | some true =>
      let rb := runT b
      (ra.1 ++ rb.1, ra.2.1 ++ rb.2.1, rb.2.2)
    | some false => (ra.1, ra.2.1, some false)
    | none => (ra.1, ra.2.1, none)
  | GTask.par a b =>
    let ra := runT a
    let rb := runT b
    (ra.1 ++ rb.1, ra.2.1 ++ rb.2.1,
      match ra.2.2, rb.2.2 with
      | some false, _ => some false
      | _, some false => some false
      | some true, some true => some true
      | _, _ => none)

/-- Whether a leaf of the given name occurs in the tree. -/
def containsLeaf : GTask → String → Bool
  | GTask.task n _, m => n == m
  | GTask.fireAndForget n, m => n == m
  | GTask.seq a b, m => containsLeaf a m || containsLeaf b m
  | GTask.par a b, m => containsLeaf a m || containsLeaf b m

/-- Whether the tree contains a sequential composition that places a leaf
named `x` strictly before a leaf named `y`. -/
def inSeriesOrder : GTask → String → String → Bool
  | GTask.task _ _, _, _ => false
  | GTask.fireAndForget _, _, _ => false
  | GTask.seq a b, x, y =>
    (containsLeaf a x && containsLeaf b y) || inSeriesOrder a x y || inSeriesOrder b x y
  | GTask.par a b, x, y => inSeriesOrder a x y || inSeriesOrder b x y

/-- Whether leaf `x` is started strictly before leaf `y` in the run trace. -/
def startsBefore (g : GTask) (x y : String) : Bool :=
  match (runT g).1.findIdx? (· == x), (runT g).1.findIdx? (· == y) with
  | some i, some j => decide (i < j)
  | _, _ => false

/-- The fast-build graph of `watch()` (compileStyle.ts lines 157-162):
`gulp.parallel(copyAsset, gulp.series(copyFileWatched, distLess,
() => { distCss(true); }))`.  The final series step invokes `distCss(true)`
without using the completion callback and without returning its stream,
hence a fire-and-forget leaf that never signals completion.  `distLess` is
fully synchronous (its write happens before its callback) and never fails. -/
def fastBuildGraph (copyAssetOk copyWatchedOk : Bool) : GTask :=
  GTask.par (GTask.task "copyAsset" copyAssetOk)
    (GTask.seq (GTask.task "copyFileWatched" copyWatchedOk)
      (GTask.seq (GTask.task "distLess" true) (GTask.fireAndForget "distCss")))

/-- The one-shot graph of `build()` (compileStyle.ts lines 180-188):
`gulp.series(gulp.parallel(copyAsset, copyFileWatched, compileLess,
handleStyleJSEntry), gulp.parallel(distLess, distCss.bind(null, false)),
gulp.parallel(() => resolve(null)))`.  `compileLess`, `distLess` and
`distCss` only log their errors and so never fail as tasks; `copyAsset`,
`copyFileWatched` and `handleStyleJSEntry` reject on failure, which the
Boolean parameters model.  The promise returned by `build()` resolves exactly
when the final `resolve` leaf is started. -/
def buildGraph (copyAssetOk copyWatchedOk jsEntryOk : Bool) : GTask :=
  GTask.seq
    (GTask.par (GTask.task "copyAsset" copyAssetOk)
      (GTask.par (GTask.task "copyFileWatched" copyWatchedOk)
        (GTask.par (GTask.task "compileLess" true) (GTask.task "handleStyleJSEntry" jsEntryOk))))
    (GTask.seq (GTask.par (GTask.task "distLess" true) (GTask.task "distCss" true))
      (GTask.task "resolve" true))

theorem isPref_append_self : ∀ (p r : List Char), isPref p (p ++ r) = true := by
  intro p r
  induction p with
  | nil => rfl
  | cons a ps ih => simp [isPref, ih]

theorem isPref_exists_append : ∀ {p l : List Char}, isPref p l = true → ∃ r, l = p ++ r := by
  intro p
  induction p with
  | nil => intro l _; exact ⟨l, rfl⟩
  | cons a ps ih =>
    intro l h
    cases l with
    | nil => simp [isPref] at h
    | cons b ls =>
      simp only [isPref, Bool.and_eq_true, beq_iff_eq] at h
      obtain ⟨r, hr⟩ := ih h.2
      exact ⟨r, by simp [h.1, hr]⟩

theorem isPref_of_append_left : ∀ {p a : List Char} (b : List Char),
    isPref p (a ++ b) = true → p.length ≤ a.length → isPref p a = true := by
  intro p
  induction p with
  | nil => intro a b _ _; cases a <;> rfl
  | cons x ps ih =>
    intro a b h hlen
    cases a with
    | nil => simp at hlen
    | cons y as =>
      simp only [List.cons_append, isPref, Bool.and_eq_true] at h ⊢
      exact ⟨h.1, ih b h.2 (by simpa using hlen)⟩

theorem isPref_append_split : ∀ {a p : List Char} (b : List Char),
    isPref p (a ++ b) = true → a.length ≤ p.length →
    a = p.take a.length ∧ isPref (p.drop a.length) b = true := by
  intro a
  induction a with
  | nil => intro p b h _; exact ⟨rfl, h⟩
  | cons x as ih =>
    intro p b h hlen
    cases p with
    | nil => simp at hlen
    | cons y ps =>
      simp only [List.cons_append, isPref, Bool.and_eq_true, beq_iff_eq] at h
      obtain ⟨h1, h2⟩ := h
      obtain ⟨ha, hb⟩ := ih b h2 (by simpa using hlen)
      refine ⟨?_, ?_⟩
      · simp [List.take, h1, ← ha]
      · simpa using hb

theorem occursIn_of_drop : ∀ {p : List Char} (a : List Char) (n : Nat),
    isPref p (a.drop n) = true → occursIn p a = true := by
  intro p a
  induction a with
  | nil => intro n h; simpa [occursIn] using h
  | cons c cs ih =>
    intro n h
    cases n with
    | zero => simp only [occursIn, List.drop] at h ⊢; simp [h]
    | succ m =>
      simp only [List.drop] at h
      simp only [occursIn, Bool.or_eq_true]
      exact Or.inr (ih m h)

theorem occursIn_append_cases : ∀ {p : List Char} (a b : List Char),
    occursIn p (a ++ b) = true →
    occursIn p b = true ∨ ∃ n, n < a.length ∧ isPref p (a.drop n ++ b) = true := by
  intro p a
  induction a with
  | nil => intro b h; exact Or.inl h
  | cons c cs ih =>
    intro b h
    simp only [List.cons_append, occursIn, Bool.or_eq_true] at h
    cases h with
    | inl h => exact Or.inr ⟨0, by simp, by simpa using h⟩
    | inr h =>
      cases ih b h with
      | inl h2 => exact Or.inl h2
      | inr h2 =>
        obtain ⟨n, hn, hp⟩ := h2
        exact Or.inr ⟨n + 1, by simpa using Nat.succ_lt_succ hn, by simpa using hp⟩

theorem findK_bounds {l : List Char} : ∀ {m k : Nat}, findK l m = some k →
    1 ≤ k ∧ k ≤ m ∧ esAt (l.drop (3 * k)) = true := by
  intro m
  induction m with
  | zero => intro k h; simp [findK] at h
  | succ j ih =>
    intro k h
    simp only [findK] at h
    by_cases he : esAt (l.drop (3 * (j + 1))) = true
    · simp [he] at h
      subst h
      exact ⟨Nat.succ_le_succ (Nat.zero_le j), Nat.le_refl _, he⟩
    · simp [he] at h
      obtain ⟨h1, h2, h3⟩ := ih h
      exact ⟨h1, Nat.le_succ_of_le h2, h3⟩

theorem tryMatch_ge_five {l : List Char} {n : Nat} (h : tryMatch l = some n) : 5 ≤ n := by
  simp only [tryMatch, Option.map_eq_some'] at h
  obtain ⟨k, hk, hn⟩ := h
  have := (findK_bounds hk).1
  omega

theorem findK_complete {l : List Char} : ∀ {m : Nat} (k : Nat), 1 ≤ k → k ≤ m →
    esAt (l.drop (3 * k)) = true → ∃ j, findK l m = some j := by
  intro m
  induction m with
  | zero => intro k h1 h2 _; omega
  | succ j ih =>
    intro k h1 h2 h3
    simp only [findK]
    by_cases he : esAt (l.drop (3 * (j + 1))) = true
    · exact ⟨j + 1, by simp [he]⟩
    · have hkj : k ≤ j := by
        rcases Nat.lt_or_ge k (j + 1) with h | h
        · omega
        · exfalso; have : k = j + 1 := by omega
          rw [this] at h3; exact he h3
      obtain ⟨j', hj'⟩ := ih k h1 hkj h3
      exact ⟨j', by simp [he, hj']⟩

theorem tryMatch_of_esPat {l : List Char} (h : isPref esPat l = true) :
    ∃ n, tryMatch l = some n := by
  obtain ⟨r, hr⟩ := isPref_exists_append h
  subst hr
  have hreps : repsFrom (esPat ++ r) = repsFrom ('e' :: 's' :: r) + 1 := by
    simp [esPat, repsFrom, notNL]
  have hdrop : (esPat ++ r).drop (3 * 1) = 'e' :: 's' :: r := by simp [esPat]
  have hes : esAt ((esPat ++ r).drop (3 * 1)) = true := by rw [hdrop]; rfl
  have hle : 1 ≤ repsFrom (esPat ++ r) := by omega
  obtain ⟨j, hj⟩ := @findK_complete (esPat ++ r) (repsFrom (esPat ++ r)) 1 (Nat.le_refl 1) hle hes
  exact ⟨3 * j + 2, by simp [tryMatch, hj]⟩

/-- One or more repetitions of the parent-directory segment `../`. -/
def dotSeg : Nat → List Char
  | 0 => []
  | k + 1 => '.' :: '.' :: '/' :: dotSeg k

theorem dotSeg_length : ∀ k, (dotSeg k).length = 3 * k := by
  intro k
  induction k with
  | zero => rfl
  | succ j ih => simp [dotSeg, ih]; omega

theorem repsFrom_dotSeg : ∀ (k : Nat) (x : List Char),
    repsFrom (dotSeg k ++ x) = k + repsFrom x := by
  intro k
  induction k with
  | zero => intro x; simp [dotSeg]
  | succ j ih =>
    intro x
    simp only [dotSeg, List.cons_append, repsFrom, notNL]
    simp [ih]
    omega

theorem pref_transfer (rp : List Char) (hs : safeR rp) :
    ∀ (fuel : Nat) (t : List Char), t.length ≤ fuel →
    (isPref ['.', '/', 'e', 's'] (replaceFuel rp fuel t) = true →
      isPref ['.', '/', 'e', 's'] t = true) ∧
    (isPref ['/', 'e', 's'] (replaceFuel rp fuel t) = true → isPref ['/', 'e', 's'] t = true) ∧
    (isPref ['e', 's'] (replaceFuel rp fuel t) = true → isPref ['e', 's'] t = true) ∧
    (isPref ['s'] (replaceFuel rp fuel t) = true → isPref ['s'] t = true) := by
  obtain ⟨hA, hB, hC, hD, hE, hF, hG, hH, hI, hJ⟩ := hs
  intro fuel
  induction fuel with
  | zero =>
    intro t hlen
    have ht : t = [] := List.length_eq_zero.mp (Nat.le_zero.mp hlen)
    subst ht
    exact ⟨id, id, id, id⟩
  | succ f ih =>
    intro t hlen
    cases t with
    | nil => exact ⟨id, id, id, id⟩
    | cons c cs =>
      have hcs : cs.length ≤ f := by simp at hlen; omega
      cases htm : tryMatch (c :: cs) with
      | some n =>
        have hrw : replaceFuel rp (f + 1) (c :: cs)
            = rp ++ replaceFuel rp f ((c :: cs).drop n) := by
          simp [replaceFuel, htm]
        rw [hrw]
        refine ⟨fun h => ?_, fun h => ?_, fun h => ?_, fun h => ?_⟩
        · have hpr := isPref_of_append_left _ h (by simp; omega)
          rw [hC] at hpr; exact Bool.noConfusion hpr
        · have hpr := isPref_of_append_left _ h (by simp; omega)
          rw [hD] at hpr; exact Bool.noConfusion hpr
        · have hpr := isPref_of_append_left _ h (by simp; omega)
          rw [hE] at hpr; exact Bool.noConfusion hpr
        · have hpr := isPref_of_append_left _ h (by simp; omega)
          rw [hF] at hpr; exact Bool.noConfusion hpr
      | none =>
        have hrw : replaceFuel rp (f + 1) (c :: cs) = c :: replaceFuel rp f cs := by
          simp [replaceFuel, htm]
        rw [hrw]
        obtain ⟨i1, i2, i3, i4⟩ := ih cs hcs
        refine ⟨fun h => ?_, fun h => ?_, fun h => ?_, fun h => ?_⟩
        · simp only [isPref, Bool.and_eq_true] at h ⊢
          exact ⟨h.1, i2 h.2⟩
        · simp only [isPref, Bool.and_eq_true] at h ⊢
          exact ⟨h.1, i3 h.2⟩
        · simp only [isPref, Bool.and_eq_true] at h ⊢
          exact ⟨h.1, i4 h.2⟩
        · simp only [isPref, Bool.and_eq_true] at h ⊢
          exact ⟨h.1, h.2⟩

theorem replaceFuel_no_es (rp : List Char) (hs : safeR rp) :
    ∀ (fuel : Nat) (t : List Char), t.length ≤ fuel →
    occursIn esPat (replaceFuel rp fuel t) = false := by
  have hs0 := hs
  obtain ⟨hA, hB, hC, hD, hE, hF, hG, hH, hI, hJ⟩ := hs
  intro fuel
  induction fuel with
  | zero =>
    intro t hlen
    have ht : t = [] := List.length_eq_zero.mp (Nat.le_zero.mp hlen)
    subst ht
    rfl
  | succ f ih =>
    intro t hlen
    cases t with
    | nil => rfl
    | cons c cs =>
      have hcs : cs.length ≤ f := by simp at hlen; omega
      cases htm : tryMatch (c :: cs) with
      | some n =>
        have hrw : replaceFuel rp (f + 1) (c :: cs)
            = rp ++ replaceFuel rp f ((c :: cs).drop n) := by
          simp [replaceFuel, htm]
        rw [hrw]
        have hn5 : 5 ≤ n := tryMatch_ge_five htm
        have hlen2 : ((c :: cs).drop n).length ≤ f := by
          simp [List.length_drop]; omega
        cases hocc : occursIn esPat (rp ++ replaceFuel rp f ((c :: cs).drop n)) with
        | false => rfl
        | true =>
          exfalso
          rcases occursIn_append_cases rp _ hocc with h | ⟨m, hm, hp⟩
          · rw [ih _ hlen2] at h; exact Bool.noConfusion h
          · by_cases h5 : 5 ≤ (rp.drop m).length
            · have hpr := isPref_of_append_left _ hp (by simpa [esPat] using h5)
              have hoc := occursIn_of_drop rp m hpr
              rw [hB] at hoc; exact Bool.noConfusion hoc
            · have hdl : (rp.drop m).length = rp.length - m := List.length_drop m rp
              obtain ⟨heq, _⟩ := isPref_append_split _ hp (by simp [esPat]; omega)
              have hL : rp.length - m = 1 ∨ rp.length - m = 2
                  ∨ rp.length - m = 3 ∨ rp.length - m = 4 := by omega
              rcases hL with h1 | h1 | h1 | h1
              · have hm1 : m = rp.length - 1 := by omega
                rw [hdl, h1, hm1] at heq
                exact hG (by simpa [esPat] using heq)
              · have hm1 : m = rp.length - 2 := by omega
                rw [hdl, h1, hm1] at heq
                exact hH (by simpa [esPat] using heq)
              · have hm1 : m = rp.length - 3 := by omega
                rw [hdl, h1, hm1] at heq
                exact hI (by simpa [esPat] using heq)
              · have hm1 : m = rp.length - 4 := by omega
                rw [hdl, h1, hm1] at heq
                exact hJ (by simpa [esPat] using heq)
      | none =>
        have hrw : replaceFuel rp (f + 1) (c :: cs) = c :: replaceFuel rp f cs := by
          simp [replaceFuel, htm]
        rw [hrw]
        have hX := ih cs hcs
        cases hp : isPref esPat (c :: replaceFuel rp f cs) with
        | false => simp [occursIn, hp, hX]
        | true =>
          exfalso
          have hp' : ('.' == c) = true ∧ isPref ['.', '/', 'e', 's'] (replaceFuel rp f cs) = true := by
            simpa [esPat, isPref] using hp
          have htr := (pref_transfer rp hs0 f cs hcs).1 hp'.2
          have hfull : isPref esPat (c :: cs) = true := by
            simp only [esPat, isPref, Bool.and_eq_true]
            exact ⟨hp'.1, htr⟩
          obtain ⟨n, hn⟩ := tryMatch_of_esPat hfull
          rw [htm] at hn; exact Option.noConfusion hn

theorem replace_starts_R (rp : List Char) (k : Nat) (rest : List Char) :
    isPref rp (replaceAllEs rp (dotSeg (k + 1) ++ 'e' :: 's' :: rest)) = true := by
  have hreps : repsFrom (dotSeg (k + 1) ++ 'e' :: 's' :: rest)
      = (k + 1) + repsFrom ('e' :: 's' :: rest) := repsFrom_dotSeg (k + 1) _
  have hdrop : (dotSeg (k + 1) ++ 'e' :: 's' :: rest).drop (3 * (k + 1))
      = 'e' :: 's' :: rest := by
    rw [← dotSeg_length (k + 1)]; exact List.drop_left _ _
  have hes : esAt ((dotSeg (k + 1) ++ 'e' :: 's' :: rest).drop (3 * (k + 1))) = true := by
    rw [hdrop]; rfl
  have hle : k + 1 ≤ repsFrom (dotSeg (k + 1) ++ 'e' :: 's' :: rest) := by omega
  obtain ⟨j, hj⟩ := @findK_complete (dotSeg (k + 1) ++ 'e' :: 's' :: rest)
    (repsFrom (dotSeg (k + 1) ++ 'e' :: 's' :: rest)) (k + 1) (by omega) hle hes
  have htm : tryMatch (dotSeg (k + 1) ++ 'e' :: 's' :: rest) = some (3 * j + 2) := by
    simp [tryMatch, hj]
  have hshape : dotSeg (k + 1) ++ 'e' :: 's' :: rest
      = '.' :: '.' :: '/' :: (dotSeg k ++ 'e' :: 's' :: rest) := by simp [dotSeg]
  rw [hshape] at htm ⊢
  simp only [replaceAllEs, List.length_cons]
  simp [replaceFuel, htm, isPref_append_self]

/-- Claim C4: in the artifact produced by `distCss`, every prefix of one or
more `../` segments immediately followed by the ESM output directory name is
rewritten to the relative path `rp` from the distributable directory to the
asset output directory (first conjunct: the scanner emits `rp` in place of
such a match), and — whenever `rp` satisfies the `safeR` side conditions,
which hold of ordinary relative paths such as `../asset` — the rewritten
output contains no remaining occurrence of `../es` (second conjunct). -/
theorem distCss_rewrite_es_references :
    (∀ (rp : List Char) (k : Nat) (rest : List Char),
      isPref rp (replaceAllEs rp (dotSeg (k + 1) ++ 'e' :: 's' :: rest)) = true)
    ∧ (∀ (rp t : List Char), safeR rp → occursIn esPat (replaceAllEs rp t) = false) :=
  ⟨replace_starts_R, fun rp t hs => replaceFuel_no_es rp hs t.length t (Nat.le_refl _)⟩

theorem distCss_rewrite_es_references_witness :
    safeR "../asset".toList
    ∧ occursIn esPat (replaceAllEs "../asset".toList "x../es img.png".toList) = false :=
  ⟨by decide,
    distCss_rewrite_es_references.2 "../asset".toList "x../es img.png".toList (by decide)⟩

/-- Claim C6: with no matched entries `distLess` skips the write (no index
file) and still completes; and `distCss` run with the index file absent
(`allowEmpty: true` on its source glob) completes without error, producing
no artifact. -/
theorem empty_match_skips_write_and_artifact_ok :
    ∀ (esDir distPath rawName : List Char) (d : Bool) (e : Option String)
      (f g : List Char → List Char) (rp : List Char),
    distLess esDir distPath rawName [] = none
    ∧ distCss d e f g rp none = Except.ok none := by
  intro esDir distPath rawName d e f g rp
  exact ⟨rfl, rfl⟩

/-- Claim C7: `distCss` applies the cleanCSS minification pass exactly when
`devMode` is false and the environment build-mode override is unset or
`production`; with `devMode = true` the artifact is the rewritten compiler
output unchanged, and with `devMode = false` and no override it is minified. -/
theorem distCss_minify_condition :
    ∀ (isDev : Bool) (env : Option String) (f g : List Char → List Char) (rp c : List Char),
    (needCleanCss isDev env = true ↔ (isDev = false ∧ (env = none ∨ env = some "production")))
    ∧ distCss true env f g rp (some c) = Except.ok (some (replaceAllEs rp (f c)))
    ∧ distCss false none f g rp (some c) = Except.ok (some (g (replaceAllEs rp (f c)))) := by
  intro isDev env f g rp c
  refine ⟨?_, ?_, ?_⟩
  · cases isDev <;> cases env <;> simp [needCleanCss]
  · simp [distCss, gulpSrc, needCleanCss]
  · simp [distCss, gulpSrc, needCleanCss]

theorem distLessTexts_foldl (esDir distPath : List Char) :
    ∀ (entries acc : List (List Char)),
    entries.foldl (distLessStep esDir distPath) acc
    = ((entries.filter (isStyleEntry esDir)).map (entryText esDir distPath)).reverse
      ++ acc
      ++ (entries.filter (fun e => !isStyleEntry esDir e)).map (entryText esDir distPath) := by
  intro entries
  induction entries with
  | nil => intro acc; simp
  | cons e es ih =>
    intro acc
    simp only [List.foldl_cons]
    rw [ih]
    by_cases h : isStyleEntry esDir e = true
    · simp [distLessStep, h, List.filter_cons]
    · simp only [Bool.not_eq_true] at h
      simp [distLessStep, h, List.filter_cons]

/-- Claim C2 (amended): the index built by `distLess` treats as style entries
exactly those whose ES-tree path starts with the literal string
`esDir ++ "/style"` — including paths such as `styleguide` that merely share
that string without lying under the style directory.  Directives so
classified are prepended as they are met in match order (so they end up in
reverse match order), all others are appended in match order, and every
prefix-classified directive precedes every other directive, independent of
the enumeration order of the entries. -/
theorem distLess_texts_partition :
    ∀ (esDir distPath : List Char) (entries : List (List Char)),
    distLessTexts esDir distPath entries
    = ((entries.filter (isStyleEntry esDir)).map (entryText esDir distPath)).reverse
      ++ (entries.filter (fun e => !isStyleEntry esDir e)).map (entryText esDir distPath) := by
  intro esDir distPath entries
  have h := distLessTexts_foldl esDir distPath entries []
  simpa [distLessTexts] using h

/-- Claim C2 counterexample: with match order
`[components/style/s.less, components/styleguide/g.less]` the generated list
places the directive of `components/styleguide/g.less` — an entry that does
not lie under the style namespace — before the directive of
`components/style/s.less`, which does, so the claimed invariant fails as
stated: the `startsWith` test of line 80 also classifies `styleguide` as
style and `unshift` puts the later match first. -/
theorem style_namespace_order_counterexample :
    distLessTexts "es".toList "dist".toList
      ["components/style/s.less".toList, "components/styleguide/g.less".toList]
    = [entryText "es".toList "dist".toList "components/styleguide/g.less".toList,
       entryText "es".toList "dist".toList "components/style/s.less".toList]
    ∧ underStyleNamespace "es".toList "components/style/s.less".toList = true
    ∧ underStyleNamespace "es".toList "components/styleguide/g.less".toList = false
    ∧ entryText "es".toList "dist".toList "components/styleguide/g.less".toList
      ≠ entryText "es".toList "dist".toList "components/style/s.less".toList := by
  exact ⟨by decide, by decide, by decide, by decide⟩

/-- Claim C3 counterexample: for the claimed scenario the first directive of
the generated index imports `../es/style/index.less`, not the claimed
`../es/components/style/index.less`: line 76 removes the first path segment
(`components`) before prefixing the ESM directory name. -/
theorem distLess_scenario_counterexample :
    (distLessTexts "es".toList "dist".toList
      ["components/button/style/index.less".toList, "components/style/index.less".toList]).head?
    = some "@import \"../es/style/index.less\";".toList
    ∧ "@import \"../es/style/index.less\";".toList
      ≠ "@import \"../es/components/style/index.less\";".toList := by
  exact ⟨by decide, by decide⟩

/-- Claim C3 (amended): for entries
`[components/button/style/index.less, components/style/index.less]` with ESM
output directory `es` and distributable directory `dist` one level away,
`distLess` writes `dist/index.less` whose first directive imports
`../es/style/index.less` and whose second imports
`../es/button/style/index.less` — the first path segment of each entry is
replaced by the ESM directory name. -/
theorem distLess_scenario_amended :
    distLess "es".toList "dist".toList "index.less".toList
      ["components/button/style/index.less".toList, "components/style/index.less".toList]
    = some ("dist/index.less".toList,
        ("@import \"../es/style/index.less\";\n"
          ++ "@import \"../es/button/style/index.less\";").toList) := by
  decide

/-- Claim C8: `compileLess` pipes the one compiled stream into every
configured destination, so whenever both the ESM and the CJS directories are
configured (non-empty), the association produced maps each of them to the
very same list of compiled files — byte-identical output per source. -/
theorem compileLess_outputs_identical :
    ∀ (a b : Char) (as bs : List Char) (f g : List Char → List Char)
      (srcs : List (List Char × List Char)),
    List.lookup (a :: as) (compileLess (a :: as) (b :: bs) f g srcs)
      = some (srcs.map (fun s => (s.1, g (f s.2))))
    ∧ List.lookup (b :: bs) (compileLess (a :: as) (b :: bs) f g srcs)
      = some (srcs.map (fun s => (s.1, g (f s.2)))) := by
  intro a b as bs f g srcs
  have hcl : compileLess (a :: as) (b :: bs) f g srcs
      = [(a :: as, srcs.map (fun s => (s.1, g (f s.2)))),
         (b :: bs, srcs.map (fun s => (s.1, g (f s.2))))] := by
    simp [compileLess]
  rw [hcl]
  refine ⟨by simp [List.lookup], ?_⟩
  simp only [List.lookup]
  cases hx : (b == a && bs == as) <;> simp [List.lookup, hx]

/-- Claim C1: for every delivered filesystem event the watch handler logs a
line of the form `[eventKind] relativePath` (the full path with the working
directory removed) and triggers one fast-build run inside `try ... catch {}`;
whatever each run `fb i` does — including failing every single time — the
session processes every event and ends in `Except.ok`, never terminating
early. -/
theorem watch_logs_each_event_and_survives :
    ∀ (cwd : String) (fb : Nat → Except String Unit) (i : Nat)
      (events : List (String × String)),
    runWatchSession cwd fb i events
      = Except.ok (events.map (fun e => watchLogLine cwd e.1 e.2)) := by
  intro cwd fb i events
  induction events generalizing i with
  | nil => rfl
  | cons e rest ih =>
    cases hfb : fb i with
    | ok u => simp [runWatchSession, hfb, ih, Except.map]
    | error msg => simp [runWatchSession, hfb, ih, Except.map]

/-- Claim C5 counterexample: in the one-shot `build()` graph a copy error —
`copyFileWatched` rejecting its promise, exactly what its `reject(error)` on
line 54 does — aborts the series before the final stage, so the `resolve`
leaf that settles the returned promise is never started even though it is
present in the graph: the promise never resolves, refuting "always resolves
... regardless of ... copy errors". -/
theorem build_copy_error_blocks_resolve :
    ((runT (buildGraph true false true)).1.contains "resolve") = false
    ∧ containsLeaf (buildGraph true false true) "resolve" = true := by
  exact ⟨by decide, by decide⟩

/-- Claim C5 (amended): the promise returned by `build()` resolves after all
stages have run when no stage rejects; compile errors in `compileLess`,
`distLess` and `distCss` are only logged and never fail their task, so they
cannot prevent resolution — but a copy error (a rejection of
`copyFileWatched` or `copyAsset`) aborts the series and the returned promise
then never resolves. -/
theorem build_resolution_semantics :
    (runT (buildGraph true true true)).1
      = ["copyAsset", "copyFileWatched", "compileLess", "handleStyleJSEntry",
         "distLess", "distCss", "resolve"]
    ∧ (runT (buildGraph true true true)).2.2 = some true
    ∧ ((runT (buildGraph true false true)).1.contains "resolve") = false
    ∧ ((runT (buildGraph false true true)).1.contains "resolve") = false := by
  exact ⟨by decide, by decide, by decide, by decide⟩

/-- Claim C9 counterexample: in the one-shot `build()` graph `distLess` and
`distCss` both occur, but under a parallel node
(`gulp.parallel(distLess, distCss.bind(null, false))`, line 184), not under
a series — refuting "the two are composed in series" for that build run. -/
theorem build_distLess_distCss_not_series :
    inSeriesOrder (buildGraph true true true) "distLess" "distCss" = false
    ∧ containsLeaf (buildGraph true true true) "distLess" = true
    ∧ containsLeaf (buildGraph true true true) "distCss" = true := by
  exact ⟨by decide, by decide, by decide⟩

/-- Claim C9 (amended): in the watch fast-build graph `distLess` (the index
build, whose write is synchronous before its callback) and `distCss` (the
artifact build) are composed in series, so the index write completes before
the artifact build begins; in the one-shot `build()` graph the two are
composed in parallel, where the single-threaded scheduler still starts
`distLess` — and hence its synchronous write — before `distCss`, in
registration order. -/
theorem index_before_artifact_ordering :
    (∀ a c : Bool, inSeriesOrder (fastBuildGraph a c) "distLess" "distCss" = true)
    ∧ startsBefore (fastBuildGraph true true) "distLess" "distCss" = true
    ∧ startsBefore (buildGraph true true true) "distLess" "distCss" = true
    ∧ inSeriesOrder (buildGraph true true true) "distLess" "distCss" = false := by
  refine ⟨?_, by decide, by decide, by decide⟩
  intro a c
  cases a <;> cases c <;> decide

/-- Claim C10 counterexample: on a run in which every task that signals at
all succeeds, the fast-build composite containing the dev-mode `distCss`
leaf produces no completion signal whatsoever: the arrow
`() => { distCss(true); }` (line 160) neither uses the scheduler's completion
callback nor returns the stream, so the final series step — and with it the
series and the whole composite — never signals completion.  This refutes the
claim's conclusion that the fast-build task graph "can signal completion
before the distributable artifact has been compiled and written": it cannot
signal completion at all on that run. -/
theorem fastBuild_completion_counterexample :
    (runT (fastBuildGraph true true)).2.2 = none
    ∧ containsLeaf (fastBuildGraph true true) "distCss" = true := by
  exact ⟨by decide, by decide⟩

/-- Claim C10 (amended): the final step of the fast-build series invokes the
dev-mode `distCss` without using the completion callback and without handing
its stream back to the scheduler (`() => { distCss(true); }`, line 160), so
the artifact pipeline is started but its completion is not among the awaited
completions — and, since the wrapper therefore never signals its own
completion, the fast-build composite never signals completion at all on a
run whose signalling tasks all succeed.  The graph's completion signal thus
never follows (and can never be used to await) the artifact write; nothing
in `watch()` waits for it. -/
theorem fastBuild_fire_and_forget_distCss :
    ((runT (fastBuildGraph true true)).1.contains "distCss") = true
    ∧ ((runT (fastBuildGraph true true)).2.1.contains "distCss") = false
    ∧ (runT (fastBuildGraph true true)).2.2 = none
    ∧ inSeriesOrder (fastBuildGraph true true) "distLess" "distCss" = true := by
  exact ⟨by decide, by decide, by decide, by decide⟩
